import Mathlib

/-
Verification development for the jsondom library (JSON DOM with a
streaming, chunk-fed parser and a canonical serializer).

Shallow embedding notes:
  - C++ bytes (char / uint8_t) are modelled as Nat; a C++ std::string is a
    List Nat of its bytes.  std::map with std::less on std::string compares
    via char_traits, i.e. unsigned byte-wise lexicographic order, which is
    keyLt below.
  - jsondom::value (dom.hpp) is the inductive value; the std::map payload of
    an object is a key-sorted association list maintained by oinsert, which
    models the insert-or-assign semantics of map::operator[] followed by
    assignment.
  - The serializer (write_internal, escape_string, jsondom::write,
    value::to_string from dom.cpp) is embedded directly.
  - The streaming parser (parser.hpp / parser.cpp) is not part of the
    examined sources; it is modelled from the specification as a resumable,
    byte-at-a-time state machine (see the parser section below).
  - C++ exceptions are modelled with Except String.
-/

namespace jsondom

abbrev bytes := List Nat

/-- Enumeration of the six JSON value types, mirroring jsondom::type. -/
inductive type where
  | null
  | boolean
  | number
  | string
  | object
  | array
deriving DecidableEq, Repr

/-- Unsigned byte-wise lexicographic order on strings, the order used by
std::map with std::less on std::string keys. -/
def keyLt : bytes → bytes → Bool
  | _, [] => false
  | [], _ :: _ => true
  | x :: xs, y :: ys => if x < y then true else if x = y then keyLt xs ys else false

/-- JSON value, mirroring jsondom::value: a tagged union over the six JSON
kinds.  Constructor order matches the jsondom::type enumeration.  An object
is an association list of key and value; trees built by the parser keep it
strictly sorted by key, as std::map does. -/
inductive value where
  | vnull
  | vboolean (b : Bool)
  | vnumber (lit : bytes)
  | vstring (s : bytes)
  | vobject (mems : List (bytes × value))
  | varray (elems : List value)

/-- Model of jsondom::value::get_type: the active variant tag. -/
def value.get_type : value → type
  | .vnull => .null
  | .vboolean _ => .boolean
  | .vnumber _ => .number
  | .vstring _ => .string
  | .vobject _ => .object
  | .varray _ => .array

/-- Model of the anonymous type_to_name helper of dom.cpp. -/
def type_to_name : type → String
  | .null => "null"
  | .boolean => "boolean"
  | .number => "number"
  | .string => "string"
  | .object => "object"
  | .array => "array"

/-- The message built by value::throw_access_error for an
unexpected_value_type exception; it carries the requested and the actual
type name, verbatim from dom.cpp. -/
def access_message (tried actual : type) : String :=
  "jsondom: could not access " ++ type_to_name tried ++
    "value, stored value is of another type (" ++ type_to_name actual ++ ")"

/-- Model of value::throw_if_type_is_not from dom.hpp: fails with the
unexpected_value_type message exactly when the active type differs. -/
def value.throw_if_type_is_not (v : value) (t : type) : Except String Unit :=
  if v.get_type = t then .ok () else .error (access_message t v.get_type)

/-- Model of the value::boolean accessors (mutable and const forms share
the same guard and result). -/
def value.boolean : value → Except String Bool
  | .vboolean b => .ok b
  | v => .error (access_message .boolean v.get_type)

/-- Model of the value::number accessors; the payload is the stored
string_number text. -/
def value.number : value → Except String bytes
  | .vnumber lit => .ok lit
  | v => .error (access_message .number v.get_type)

/-- Model of the value::string accessors. -/
def value.string : value → Except String bytes
  | .vstring s => .ok s
  | v => .error (access_message .string v.get_type)

/-- Model of the value::array accessors. -/
def value.array : value → Except String (List value)
  | .varray l => .ok l
  | v => .error (access_message .array v.get_type)

/-- Model of the value::object accessors. -/
def value.object : value → Except String (List (bytes × value))
  | .vobject m => .ok m
  | v => .error (access_message .object v.get_type)

/-- Insert-or-assign into a key-sorted association list: the semantics of
map::operator[] followed by assignment on std::map. -/
def oinsert (k : bytes) (v : value) : List (bytes × value) → List (bytes × value)
  | [] => [(k, v)]
  | (k2, v2) :: rest =>
    if keyLt k k2 then (k, v) :: (k2, v2) :: rest
    else if k = k2 then (k, v) :: rest
    else (k2, v2) :: oinsert k v rest

/-- Lookup in an association list (map::find semantics on the sorted lists
the parser builds). -/
def olookup (k : bytes) : List (bytes × value) → Option value
  | [] => none
  | (k2, v2) :: rest => if k = k2 then some v2 else olookup k rest

/-- One iteration of the escape_string loop of dom.cpp: the switch over a
single byte. -/
def escByte (c : Nat) : bytes :=
  if c = 34 then [92, 34]
  else if c = 92 then [92, 92]
  else if c = 47 then [92, 47]
  else if c = 8 then [92, 98]
  else if c = 12 then [92, 102]
  else if c = 10 then [92, 110]
  else if c = 13 then [92, 114]
  else if c = 9 then [92, 116]
  else [c]

/-- Model of escape_string from dom.cpp: each byte of the input is passed
through the escaping switch. -/
def escape_string : bytes → bytes
  | [] => []
  | c :: rest => escByte c ++ escape_string rest

mutual

/-- Model of write_internal from dom.cpp: renders one value to JSON text. -/
def write_internal : value → bytes
  | .vnull => [110, 117, 108, 108]
  | .vboolean b => if b then [116, 114, 117, 101] else [102, 97, 108, 115, 101]
  | .vnumber lit => lit
  | .vstring s => 34 :: (escape_string s ++ [34])
  | .varray l => 91 :: (write_arr true l ++ [93])
  | .vobject m => 123 :: (write_obj true m ++ [125])

/-- The element loop of write_internal for arrays: a comma before every
element except the first. -/
def write_arr : Bool → List value → bytes
  | _, [] => []
  | first, v :: rest =>
    (if first then [] else [44]) ++ write_internal v ++ write_arr false rest

/-- The member loop of write_internal for objects: comma separation, the
escaped key in quotes, a colon, then the value. -/
def write_obj : Bool → List (bytes × value) → bytes
  | _, [] => []
  | first, (k, v) :: rest =>
    (if first then [] else [44]) ++ (34 :: (escape_string k ++ [34, 58])) ++
      write_internal v ++ write_obj false rest

end

/-- Model of jsondom::write into an in-memory sink: fails before touching
the sink when the root is not an object (dom.cpp throws std::logic_error
before constructing the file guard). -/
def write (v : value) : Except String bytes :=
  if v.get_type = .object then .ok (write_internal v)
  else .error "tried to write JSON with non-object root element"

/-- Model of value::to_string: write into a vector_file and return its
contents; inherits the non-object-root failure of jsondom::write. -/
def value.to_string (v : value) : Except String bytes := write v

/-- State of the destination sink of jsondom::write: whether the file guard
was ever acquired (create mode truncates), and the written content. -/
structure sink_state where
  opened : Bool
  content : bytes

/-- Model of jsondom::write against a stateful sink, preserving the order
of dom.cpp: the root-type check throws before the file guard is constructed,
so on error the sink is returned untouched. -/
def write_run (v : value) (f : sink_state) : Option String × sink_state :=
  if v.get_type = .object then (none, ⟨true, write_internal v⟩)
  else (some "tried to write JSON with non-object root element", f)

/-
Parser section.

Modelled from the spec: parser.hpp and parser.cpp of this repository are not
among the examined sources (dom.cpp only calls parser::feed and implements
the event callbacks), so the push-style resumable lexer and parser state
machine is reconstructed from the specification: it consumes one byte at a
time, keeps partial tokens (strings, escapes, unicode escapes, numbers,
keyword literals) in its state so that chunk boundaries are invisible, keeps
a stack of open containers that decides whether a comma, colon or closing
bracket is valid, and emits the structural events consumed by dom_parser.
A number token ends at the first byte outside the number alphabet; the
pending number at the end of input of a balanced document is flushed,
matching the specified terminal condition and the specified behavior of
read on inputs such as a bare number.
-/

/-- Structural events emitted by the parser, one per callback of the
parser interface consumed by dom_parser in dom.cpp. -/
inductive pevent where
  | objStart
  | objEnd
  | arrStart
  | arrEnd
  | keyParsed (s : bytes)
  | strParsed (s : bytes)
  | numParsed (s : bytes)
  | boolParsed (b : Bool)
  | nullParsed

/-- An open container frame of the parser stack. -/
inductive ctx where
  | inArr
  | inObj

/-- The three keyword literals. -/
inductive litk where
  | ltrue
  | lfalse
  | lnull

/-- The byte text of a keyword literal. -/
def litk.word : litk → bytes
  | .ltrue => [116, 114, 117, 101]
  | .lfalse => [102, 97, 108, 115, 101]
  | .lnull => [110, 117, 108, 108]

/-- The event emitted when a keyword literal completes. -/
def litk.event : litk → pevent
  | .ltrue => .boolParsed true
  | .lfalse => .boolParsed false
  | .lnull => .nullParsed

/-- Modelled from the spec: the conceptual parser states, including the
partial-token states that make the parser resumable across chunk
boundaries. -/
inductive pmode where
  | mValue
  | mValueOrEnd
  | mKeyOrEnd
  | mKey
  | mColon
  | mCommaOrEnd
  | mDone
  | mStr (isKey : Bool) (acc : bytes)
  | mEsc (isKey : Bool) (acc : bytes)
  | mHex (isKey : Bool) (acc : bytes) (hex : bytes)
  | mNum (acc : bytes)
  | mLit (k : litk) (pos : Nat)

/-- Complete parser state: current mode plus the stack of open containers. -/
structure parser_state where
  mode : pmode
  stack : List ctx

/-- JSON inter-token whitespace. -/
def isWs (b : Nat) : Bool := b = 32 || b = 9 || b = 10 || b = 13

/-- ASCII decimal digit. -/
def isDigit (b : Nat) : Bool := 48 ≤ b && b ≤ 57

/-- Bytes that may occur inside a number token. -/
def isNumByte (b : Nat) : Bool :=
  isDigit b || b = 43 || b = 45 || b = 46 || b = 101 || b = 69

/-- ASCII hexadecimal digit. -/
def isHexDigit (b : Nat) : Bool :=
  isDigit b || (97 ≤ b && b ≤ 102) || (65 ≤ b && b ≤ 70)

/-- Numeric value of a hexadecimal digit byte. -/
def hexVal (b : Nat) : Nat :=
  if b ≤ 57 then b - 48 else if b ≤ 70 then b - 55 else b - 87

/-- UTF-8 encoding of a code point below 2 to the 16, used for decoded
unicode escapes. -/
def utf8enc (n : Nat) : bytes :=
  if n < 128 then [n]
  else if n < 2048 then [192 + n / 64, 128 + n % 64]
  else [224 + n / 4096, 128 + (n / 64) % 64, 128 + n % 64]

/-- List indexing used by the keyword-literal matcher. -/
def nthByte : bytes → Nat → Option Nat
  | [], _ => none
  | b :: _, 0 => some b
  | _ :: rest, n + 1 => nthByte rest n

/-- The mode entered after a complete value: done at the top level,
expecting a comma or a container end inside a container. -/
def afterValue : List ctx → pmode
  | [] => .mDone
  | _ :: _ => .mCommaOrEnd

/-- Dispatch on the first byte of a value. -/
def startValue (st : List ctx) (b : Nat) : Except String (parser_state × List pevent) :=
  if b = 123 then .ok (⟨.mKeyOrEnd, .inObj :: st⟩, [.objStart])
  else if b = 91 then .ok (⟨.mValueOrEnd, .inArr :: st⟩, [.arrStart])
  else if b = 34 then .ok (⟨.mStr false [], st⟩, [])
  else if b = 45 || isDigit b then .ok (⟨.mNum [b], st⟩, [])
  else if b = 116 then .ok (⟨.mLit .ltrue 1, st⟩, [])
  else if b = 102 then .ok (⟨.mLit .lfalse 1, st⟩, [])
  else if b = 110 then .ok (⟨.mLit .lnull 1, st⟩, [])
  else .error "syntax error: unexpected byte while expecting a value"

/-- One byte of parser progress in every mode except a pending number
flush; a byte that is invalid for the current state is a syntax error. -/
def pstepBase : parser_state → Nat → Except String (parser_state × List pevent)
  | ⟨.mValue, st⟩, b =>
    if isWs b then .ok (⟨.mValue, st⟩, []) else startValue st b
  | ⟨.mValueOrEnd, st⟩, b =>
    if isWs b then .ok (⟨.mValueOrEnd, st⟩, [])
    else if b = 93 then
      match st with
      | .inArr :: rest => .ok (⟨afterValue rest, rest⟩, [.arrEnd])
      | _ => .error "syntax error: unbalanced closing bracket"
    else startValue st b
  | ⟨.mKeyOrEnd, st⟩, b =>
    if isWs b then .ok (⟨.mKeyOrEnd, st⟩, [])
    else if b = 34 then .ok (⟨.mStr true [], st⟩, [])
    else if b = 125 then
      match st with
      | .inObj :: rest => .ok (⟨afterValue rest, rest⟩, [.objEnd])
      | _ => .error "syntax error: unbalanced closing brace"
    else .error "syntax error: expected key or closing brace"
  | ⟨.mKey, st⟩, b =>
    if isWs b then .ok (⟨.mKey, st⟩, [])
    else if b = 34 then .ok (⟨.mStr true [], st⟩, [])
    else .error "syntax error: expected key"
  | ⟨.mColon, st⟩, b =>
    if isWs b then .ok (⟨.mColon, st⟩, [])
    else if b = 58 then .ok (⟨.mValue, st⟩, [])
    else .error "syntax error: expected colon"
  | ⟨.mCommaOrEnd, st⟩, b =>
    if isWs b then .ok (⟨.mCommaOrEnd, st⟩, [])
    else if b = 44 then
      match st with
      | .inArr :: _ => .ok (⟨.mValue, st⟩, [])
      | .inObj :: _ => .ok (⟨.mKey, st⟩, [])
      | [] => .error "syntax error: unexpected comma"
    else if b = 93 then
      match st with
      | .inArr :: rest => .ok (⟨afterValue rest, rest⟩, [.arrEnd])
      | _ => .error "syntax error: unbalanced closing bracket"
    else if b = 125 then
      match st with
      | .inObj :: rest => .ok (⟨afterValue rest, rest⟩, [.objEnd])
      | _ => .error "syntax error: unbalanced closing brace"
    else .error "syntax error: expected comma or container end"
  | ⟨.mDone, st⟩, b =>
    if isWs b then .ok (⟨.mDone, st⟩, [])
    else .error "syntax error: unexpected trailing byte"
  | ⟨.mStr isKey acc, st⟩, b =>
    if b = 34 then
      if isKey then .ok (⟨.mColon, st⟩, [.keyParsed acc])
      else .ok (⟨afterValue st, st⟩, [.strParsed acc])
    else if b = 92 then .ok (⟨.mEsc isKey acc, st⟩, [])
    else .ok (⟨.mStr isKey (acc ++ [b]), st⟩, [])
  | ⟨.mEsc isKey acc, st⟩, b =>
    if b = 34 then .ok (⟨.mStr isKey (acc ++ [34]), st⟩, [])
    else if b = 92 then .ok (⟨.mStr isKey (acc ++ [92]), st⟩, [])
    else if b = 47 then .ok (⟨.mStr isKey (acc ++ [47]), st⟩, [])
    else if b = 98 then .ok (⟨.mStr isKey (acc ++ [8]), st⟩, [])
    else if b = 102 then .ok (⟨.mStr isKey (acc ++ [12]), st⟩, [])
    else if b = 110 then .ok (⟨.mStr isKey (acc ++ [10]), st⟩, [])
    else if b = 114 then .ok (⟨.mStr isKey (acc ++ [13]), st⟩, [])
    else if b = 116 then .ok (⟨.mStr isKey (acc ++ [9]), st⟩, [])
    else if b = 117 then .ok (⟨.mHex isKey acc [], st⟩, [])
    else .error "syntax error: invalid escape sequence"
  | ⟨.mHex isKey acc hex, st⟩, b =>
    if isHexDigit b then
      if hex.length = 3 then
        .ok (⟨.mStr isKey
          (acc ++ utf8enc ((hex ++ [b]).foldl (fun a d => a * 16 + hexVal d) 0)), st⟩, [])
      else .ok (⟨.mHex isKey acc (hex ++ [b]), st⟩, [])
    else .error "syntax error: invalid unicode escape"
  | ⟨.mNum acc, st⟩, b =>
    if isNumByte b then .ok (⟨.mNum (acc ++ [b]), st⟩, [])
    else .error "internal: number flush handled by pstep"
  | ⟨.mLit k pos, st⟩, b =>
    if nthByte k.word pos = some b then
      if pos + 1 = k.word.length then .ok (⟨afterValue st, st⟩, [k.event])
      else .ok (⟨.mLit k (pos + 1), st⟩, [])
    else .error "syntax error: invalid literal keyword"

/-- One byte of parser progress: inside a number a byte outside the number
alphabet first flushes the number-parsed event, then is reprocessed in the
state that follows a complete value. -/
def pstep (s : parser_state) (b : Nat) : Except String (parser_state × List pevent) :=
  match s with
  | ⟨.mNum acc, st⟩ =>
    if isNumByte b then .ok (⟨.mNum (acc ++ [b]), st⟩, [])
    else
      match pstepBase ⟨afterValue st, st⟩ b with
      | .ok (s2, evs) => .ok (s2, .numParsed acc :: evs)
      | .error e => .error e
  | _ => pstepBase s b

/-- Model of parser::feed on one chunk: bytes are consumed one at a time,
events accumulate in order; state is retained between bytes. -/
def feed : parser_state → bytes → Except String (parser_state × List pevent)
  | s, [] => .ok (s, [])
  | s, b :: rest =>
    match pstep s b with
    | .ok (s1, e1) =>
      match feed s1 rest with
      | .ok (s2, e2) => .ok (s2, e1 ++ e2)
      | .error e => .error e
    | .error e => .error e

/-- Sequencing of one feed result with a further chunk. -/
def seqFeed (r : Except String (parser_state × List pevent)) (ys : bytes) :
    Except String (parser_state × List pevent) :=
  match r with
  | .ok (s1, e1) =>
    match feed s1 ys with
    | .ok (s2, e2) => .ok (s2, e1 ++ e2)
    | .error e => .error e
  | .error e => .error e

/-- Repeated parser::feed calls, one per chunk, as the read loop of
dom.cpp performs them. -/
def feedChunks : parser_state → List bytes → Except String (parser_state × List pevent)
  | s, [] => .ok (s, [])
  | s, c :: cs =>
    match feed s c with
    | .ok (s1, e1) =>
      match feedChunks s1 cs with
      | .ok (s2, e2) => .ok (s2, e1 ++ e2)
      | .error e => .error e
    | .error e => .error e

/-- Initial parser state: expecting a value at depth zero. -/
def pinit : parser_state := ⟨.mValue, []⟩

/-- Modelled from the spec: the terminal condition at end of input.  A
balanced document may end inside a number token, which is then flushed; an
empty or whitespace-only input ends in the initial state and produced no
value; anything else is an incomplete document. -/
def pfinish : parser_state → Except String (List pevent)
  | ⟨.mDone, []⟩ => .ok []
  | ⟨.mValue, []⟩ => .ok []
  | ⟨.mNum acc, []⟩ => .ok [.numParsed acc]
  | _ => .error "syntax error: unexpected end of input"

/-- Full parse of a byte sequence into its event stream. -/
def parseEvents (bs : bytes) : Except String (List pevent) :=
  match feed pinit bs with
  | .ok (s, evs) =>
    match pfinish s with
    | .ok evs2 => .ok (evs ++ evs2)
    | .error e => .error e
  | .error e => .error e

/-
Tree builder section: the dom_parser event consumer of dom.cpp.  The root
document is an anonymous array wrapper; a stack of open containers receives
the events; a pending key buffer is used inside objects.  Attachment of a
completed sub-container into its parent is performed here when the
container closes, with the key saved when it opened; this is equivalent to
the insertion dom.cpp performs when the container opens, because only the
top of the stack is ever mutated while the container is open.
-/

/-- A currently open container of the builder. -/
inductive openc where
  | arrC (elems : List value)
  | objC (mems : List (bytes × value))

/-- Builder state: parent frames with their saved pending key, the
innermost open container, and the pending key buffer. -/
structure bstate where
  stk : List (openc × bytes)
  cur : openc
  key : bytes

/-- The value of a completed container. -/
def closeOpen : openc → value
  | .arrC es => .varray es
  | .objC m => .vobject m

/-- Attach a completed value into a container, under the given key when the
container is an object. -/
def attachInto : openc → bytes → value → openc
  | .arrC es, _, v => .arrC (es ++ [v])
  | .objC m, k, v => .objC (oinsert k v m)

/-- Attach a scalar to the innermost container: arrays append, objects
insert under the pending key and clear it, as the dom_parser callbacks do. -/
def attachScalar (s : bstate) (v : value) : bstate :=
  match s.cur with
  | .arrC es => ⟨s.stk, .arrC (es ++ [v]), s.key⟩
  | .objC m => ⟨s.stk, .objC (oinsert s.key v m), []⟩

/-- One builder transition per event, mirroring the dom_parser callbacks of
dom.cpp; the pending key is cleared exactly where dom.cpp clears it. -/
def bstep (s : bstate) (e : pevent) : bstate :=
  match e with
  | .objStart =>
    match s.cur with
    | .objC _ => ⟨(s.cur, s.key) :: s.stk, .objC [], []⟩
    | .arrC _ => ⟨(s.cur, s.key) :: s.stk, .objC [], s.key⟩
  | .arrStart =>
    match s.cur with
    | .objC _ => ⟨(s.cur, s.key) :: s.stk, .arrC [], []⟩
    | .arrC _ => ⟨(s.cur, s.key) :: s.stk, .arrC [], s.key⟩
  | .objEnd =>
    match s.stk with
    | [] => s
    | (p, k) :: rest => ⟨rest, attachInto p k (closeOpen s.cur), s.key⟩
  | .arrEnd =>
    match s.stk with
    | [] => s
    | (p, k) :: rest => ⟨rest, attachInto p k (closeOpen s.cur), s.key⟩
  | .keyParsed k => ⟨s.stk, s.cur, k⟩
  | .strParsed str => attachScalar s (.vstring str)
  | .numParsed lit => attachScalar s (.vnumber lit)
  | .boolParsed b => attachScalar s (.vboolean b)
  | .nullParsed => attachScalar s .vnull

/-- Initial builder state: the anonymous root array wrapper. -/
def binit : bstate := ⟨[], .arrC [], []⟩

/-- Run the builder over an event list. -/
def runB (evs : List pevent) (s : bstate) : bstate := evs.foldl bstep s

/-- Extraction of the document from the root wrapper, as read does in
dom.cpp: the first element of the wrapper array, or a null value when the
input produced no top-level value. -/
def buildDoc (evs : List pevent) : value :=
  match (runB evs binit).cur with
  | .arrC [] => .vnull
  | .arrC (v :: _) => v
  | .objC _ => .vnull

/-- Model of jsondom::read over a byte span (span and string overloads feed
the whole input as one chunk). -/
def read (bs : bytes) : Except String value :=
  match feed pinit bs with
  | .ok (s, evs) =>
    match pfinish s with
    | .ok evs2 => .ok (buildDoc (evs ++ evs2))
    | .error e => .error e
  | .error e => .error e

/-- Model of jsondom::read over a papki::file: the source delivers the
bytes as a sequence of chunks (fixed-size buffers in dom.cpp), each fed to
the parser in turn. -/
def read_file (cs : List bytes) : Except String value :=
  match feedChunks pinit cs with
  | .ok (s, evs) =>
    match pfinish s with
    | .ok evs2 => .ok (buildDoc (evs ++ evs2))
    | .error e => .error e
  | .error e => .error e

/-
Tree-level auxiliary definitions used by the statements: the event stream a
value serializes to, key-order normalization, and the well-formedness
predicates that the C++ data model guarantees by construction.
-/

mutual

/-- The structural event stream corresponding to one value, in the order
the parser emits the events while reading its serialization. -/
def events_of : value → List pevent
  | .vnull => [.nullParsed]
  | .vboolean b => [.boolParsed b]
  | .vnumber lit => [.numParsed lit]
  | .vstring s => [.strParsed s]
  | .varray l => .arrStart :: (events_arr l ++ [.arrEnd])
  | .vobject m => .objStart :: (events_obj m ++ [.objEnd])

/-- Event streams of array elements, in element order. -/
def events_arr : List value → List pevent
  | [] => []
  | v :: rest => events_of v ++ events_arr rest

/-- Event streams of object members, each key event followed by the member
value events, in stored member order. -/
def events_obj : List (bytes × value) → List pevent
  | [] => []
  | (k, v) :: rest => .keyParsed k :: (events_of v ++ events_obj rest)

end

mutual

/-- Object-key-order normalization: re-inserts every object member list
into a sorted map in stored order (so a later duplicate key wins), leaving
everything else unchanged.  On trees whose objects already are sorted
unique-key maps, as every std::map-backed C++ tree is, it is the
identity. -/
def normalize : value → value
  | .vnull => .vnull
  | .vboolean b => .vboolean b
  | .vnumber lit => .vnumber lit
  | .vstring s => .vstring s
  | .varray l => .varray (normalize_arr l)
  | .vobject m => .vobject (normalize_obj [] m)

/-- Normalization of array elements. -/
def normalize_arr : List value → List value
  | [] => []
  | v :: rest => normalize v :: normalize_arr rest

/-- Normalization of object members: fold the members into a sorted map. -/
def normalize_obj : List (bytes × value) → List (bytes × value) → List (bytes × value)
  | acc, [] => acc
  | acc, (k, v) :: rest => normalize_obj (oinsert k (normalize v) acc) rest

end

/-- Well-formedness of a stored number literal with respect to the JSON
number grammar as the lexer needs it: nonempty, starting with a minus sign
or a digit, all bytes in the number alphabet.  Every literal the parser
itself produces satisfies this, and the data-model invariant of the spec
requires it of caller-built literals. -/
def litOK : bytes → Bool
  | [] => false
  | h :: t => (h = 45 || isDigit h) && t.all isNumByte

mutual

/-- All number literals in the tree match the number grammar. -/
def num_wf : value → Bool
  | .vnull => true
  | .vboolean _ => true
  | .vnumber lit => litOK lit
  | .vstring _ => true
  | .varray l => num_wf_arr l
  | .vobject m => num_wf_obj m

/-- Number well-formedness of array elements. -/
def num_wf_arr : List value → Bool
  | [] => true
  | v :: rest => num_wf v && num_wf_arr rest

/-- Number well-formedness of object members. -/
def num_wf_obj : List (bytes × value) → Bool
  | [] => true
  | (_, v) :: rest => num_wf v && num_wf_obj rest

end

/-- Strict ascending key order of an object member list. -/
def sorted_keys : List (bytes × value) → Bool
  | [] => true
  | [_] => true
  | (k1, v1) :: (k2, v2) :: rest => keyLt k1 k2 && sorted_keys ((k2, v2) :: rest)

mutual

/-- Canonical trees: every object member list is strictly sorted by key, as
the std::map representation of the C++ value guarantees. -/
def canonical : value → Bool
  | .vnull => true
  | .vboolean _ => true
  | .vnumber _ => true
  | .vstring _ => true
  | .varray l => canonical_arr l
  | .vobject m => sorted_keys m && canonical_obj m

/-- Canonicity of array elements. -/
def canonical_arr : List value → Bool
  | [] => true
  | v :: rest => canonical v && canonical_arr rest

/-- Canonicity of object members. -/
def canonical_obj : List (bytes × value) → Bool
  | [] => true
  | (_, v) :: rest => canonical v && canonical_obj rest

end

/-- Fold a member list into a sorted map by insert-or-assign, the way the
builder accumulates the members of one parsed object. -/
def buildMap (l : List (bytes × value)) : List (bytes × value) :=
  l.foldl (fun acc p => oinsert p.1 p.2 acc) []

/-- Structural recursion principle for value that presents the elements of
the nested lists through membership. -/
def value.recAux (P : value → Prop)
    (h0 : P .vnull)
    (h1 : ∀ b, P (.vboolean b))
    (h2 : ∀ s, P (.vnumber s))
    (h3 : ∀ s, P (.vstring s))
    (h4 : ∀ m, (∀ k v, (k, v) ∈ m → P v) → P (.vobject m))
    (h5 : ∀ l, (∀ v, v ∈ l → P v) → P (.varray l)) :
    ∀ v, P v
  | .vnull => h0
  | .vboolean b => h1 b
  | .vnumber s => h2 s
  | .vstring s => h3 s
  | .vobject m => h4 m (fun k v hkv => value.recAux P h0 h1 h2 h3 h4 h5 v)
  | .varray l => h5 l (fun v hv => value.recAux P h0 h1 h2 h3 h4 h5 v)
termination_by v => sizeOf v
decreasing_by
  · have hlt := List.sizeOf_lt_of_mem hkv
    simp only [Prod.mk.sizeOf_spec] at hlt
    simp only [value.vobject.sizeOf_spec]
    omega
  · have hlt := List.sizeOf_lt_of_mem hv
    simp only [value.varray.sizeOf_spec]
    omega

/-
Lemma section: general facts about the embedded operations, shared by the
claim theorems below.
-/

/-- Feeding a concatenation equals feeding the pieces in sequence: the
parser consumes input byte by byte and keeps all token state between
bytes. -/
theorem feed_append : ∀ (xs ys : bytes) (s : parser_state),
    feed s (xs ++ ys) = seqFeed (feed s xs) ys := by
  intro xs
  induction xs with
  | nil =>
    intro ys s
    cases h : feed s ys <;> simp [feed, seqFeed, h]
  | cons b xs ih =>
    intro ys s
    cases hp : pstep s b with
    | error e => simp [feed, hp, seqFeed]
    | ok p =>
      obtain ⟨s1, e1⟩ := p
      simp only [List.cons_append, feed, hp, List.append_eq]
      cases hx : feed s1 xs with
      | error e =>
        rw [ih ys s1, hx]
        simp [seqFeed]
      | ok q =>
        obtain ⟨sa, ea⟩ := q
        rw [ih ys s1, hx]
        cases hy : feed sa ys with
        | error e => simp [seqFeed, hy]
        | ok r =>
          obtain ⟨s2, e2⟩ := r
          simp [seqFeed, hy, List.append_assoc]

/-- Helper form of feed_append with both pieces succeeding. -/
theorem feed_seq {s s1 s2 : parser_state} {e1 e2 : List pevent} {xs ys : bytes}
    (h1 : feed s xs = .ok (s1, e1)) (h2 : feed s1 ys = .ok (s2, e2)) :
    feed s (xs ++ ys) = .ok (s2, e1 ++ e2) := by
  rw [feed_append, h1]
  simp [seqFeed, h2]

/-- Read in terms of the parsed event stream. -/
theorem read_of_parseEvents {bs : bytes} {evs : List pevent}
    (h : parseEvents bs = .ok evs) : read bs = .ok (buildDoc evs) := by
  unfold parseEvents at h
  unfold read
  cases hf : feed pinit bs with
  | error e => rw [hf] at h; simp at h
  | ok p =>
    obtain ⟨s, evs1⟩ := p
    rw [hf] at h
    simp only [] at h
    cases hp : pfinish s with
    | error e => rw [hp] at h; simp at h
    | ok evs2 =>
      rw [hp] at h
      simp only [Except.ok.injEq] at h
      subst h
      simp [hp]

/-- Option fallback used to describe association-list lookups. -/
def myOr (a b : Option value) : Option value :=
  match a with
  | some x => some x
  | none => b

theorem myOr_assoc (a b c : Option value) : myOr (myOr a b) c = myOr a (myOr b c) := by
  cases a <;> simp [myOr]

theorem myOr_none_right (a : Option value) : myOr a none = a := by
  cases a <;> simp [myOr]

theorem olookup_append (k : bytes) :
    ∀ xs ys, olookup k (xs ++ ys) = myOr (olookup k xs) (olookup k ys) := by
  intro xs
  induction xs with
  | nil => intro ys; simp [olookup, myOr]
  | cons p xs ih =>
    intro ys
    obtain ⟨k2, v2⟩ := p
    by_cases h : k = k2 <;> simp [olookup, h, myOr, ih]

/-- Lookup after insert-or-assign: the inserted key maps to the new value,
all other keys are untouched. -/
theorem olookup_oinsert (k k0 : bytes) (v : value) :
    ∀ m, olookup k (oinsert k0 v m) = if k = k0 then some v else olookup k m := by
  intro m
  induction m with
  | nil => by_cases h : k = k0 <;> simp [oinsert, olookup, h]
  | cons p rest ih =>
    obtain ⟨k2, v2⟩ := p
    by_cases hlt : keyLt k0 k2 = true
    · by_cases h : k = k0 <;> simp [oinsert, hlt, olookup, h]
    · by_cases heq : k0 = k2
      · subst heq
        by_cases h : k = k0 <;> simp [oinsert, hlt, olookup, h]
      · by_cases h : k = k2
        · subst h
          have hne : ¬k = k0 := fun hh => heq hh.symm
          simp [oinsert, hlt, heq, olookup, hne]
        · simp [oinsert, hlt, heq, olookup, h, ih]

/-- Lookup through the member fold: the last inserted occurrence of a key
wins, and keys never inserted fall through to the accumulator. -/
theorem olookup_foldl (k : bytes) :
    ∀ (l acc : List (bytes × value)),
      olookup k (l.foldl (fun acc p => oinsert p.1 p.2 acc) acc) =
        myOr (olookup k l.reverse) (olookup k acc) := by
  intro l
  induction l with
  | nil => intro acc; simp [olookup, myOr]
  | cons p rest ih =>
    intro acc
    obtain ⟨k2, v2⟩ := p
    simp only [List.foldl_cons, List.reverse_cons]
    rw [ih, olookup_append, myOr_assoc, olookup_oinsert]
    by_cases h : k = k2 <;> simp [olookup, h, myOr]

/-- Strict key order on object members. -/
def kLT (p q : bytes × value) : Prop := keyLt p.1 q.1 = true

theorem keyLt_irrefl : ∀ k, keyLt k k = false := by
  intro k
  induction k with
  | nil => rfl
  | cons x xs ih => simp [keyLt, ih]

theorem keyLt_asymm : ∀ a b, keyLt a b = true → keyLt b a = false := by
  intro a
  induction a with
  | nil =>
    intro b hb
    cases b with
    | nil => simp [keyLt] at hb
    | cons y ys => simp [keyLt]
  | cons x xs ih =>
    intro b hb
    cases b with
    | nil => simp [keyLt] at hb
    | cons y ys =>
      simp only [keyLt] at hb ⊢
      by_cases h1 : x < y
      · have h2 : ¬y < x := by omega
        have h3 : ¬y = x := by omega
        simp [h2, h3]
      · by_cases h2 : x = y
        · subst h2
          rw [if_neg h1, if_pos rfl] at hb
          rw [if_neg h1, if_pos rfl]
          exact ih ys hb
        · rw [if_neg h1, if_neg h2] at hb
          exact absurd hb (by simp)

theorem keyLt_ne {a b : bytes} (h : keyLt a b = true) : a ≠ b := by
  intro he
  subst he
  rw [keyLt_irrefl] at h
  exact Bool.false_ne_true h

theorem keyLt_total : ∀ a b, keyLt a b = false → keyLt b a = false → a = b := by
  intro a
  induction a with
  | nil =>
    intro b hab hba
    cases b with
    | nil => rfl
    | cons y ys => simp [keyLt] at hab
  | cons x xs ih =>
    intro b hab hba
    cases b with
    | nil => simp [keyLt] at hba
    | cons y ys =>
      simp only [keyLt] at hab hba
      by_cases h1 : x < y
      · simp [h1] at hab
      · by_cases h2 : y < x
        · simp [h2] at hba
        · have hxy : x = y := by omega
          subst hxy
          rw [if_neg h1, if_pos rfl] at hab
          rw [if_neg h1, if_pos rfl] at hba
          rw [ih ys hab hba]

theorem keyLt_trans : ∀ a b c, keyLt a b = true → keyLt b c = true → keyLt a c = true := by
  intro a
  induction a with
  | nil =>
    intro b c hab hbc
    cases c with
    | nil =>
      cases b with
      | nil => simp [keyLt] at hab
      | cons y ys => simp [keyLt] at hbc
    | cons z zs => simp [keyLt]
  | cons x xs ih =>
    intro b c hab hbc
    cases b with
    | nil => simp [keyLt] at hab
    | cons y ys =>
      cases c with
      | nil => simp [keyLt] at hbc
      | cons z zs =>
        simp only [keyLt] at hab hbc ⊢
        by_cases h1 : x < y
        · by_cases h2 : y < z
          · have : x < z := by omega
            simp [this]
          · by_cases h3 : y = z
            · subst h3; simp [h1]
            · simp [h2, h3] at hbc
        · by_cases h4 : x = y
          · subst h4
            by_cases h2 : x < z
            · simp [h2]
            · by_cases h3 : x = z
              · subst h3
                rw [if_neg h2, if_pos rfl] at hab hbc ⊢
                exact ih ys zs hab hbc
              · simp [h2, h3] at hbc
          · simp [h1, h4] at hab

theorem mem_oinsert {k : bytes} {v : value} :
    ∀ m p, p ∈ oinsert k v m → p = (k, v) ∨ p ∈ m := by
  intro m
  induction m with
  | nil =>
    intro p hp
    simp [oinsert] at hp
    exact Or.inl hp
  | cons q rest ih =>
    intro p hp
    obtain ⟨k2, v2⟩ := q
    by_cases h1 : keyLt k k2 = true
    · rw [oinsert, if_pos h1] at hp
      rcases List.mem_cons.mp hp with h | h
      · exact Or.inl h
      · exact Or.inr h
    · by_cases h2 : k = k2
      · rw [oinsert, if_neg h1, if_pos h2] at hp
        rcases List.mem_cons.mp hp with h | h
        · exact Or.inl h
        · exact Or.inr (List.mem_cons.mpr (Or.inr h))
      · rw [oinsert, if_neg h1, if_neg h2] at hp
        rcases List.mem_cons.mp hp with h | h
        · exact Or.inr (List.mem_cons.mpr (Or.inl h))
        · rcases ih p h with h3 | h3
          · exact Or.inl h3
          · exact Or.inr (List.mem_cons.mpr (Or.inr h3))

theorem oinsert_pairwise {k : bytes} {v : value} :
    ∀ m, m.Pairwise kLT → (oinsert k v m).Pairwise kLT := by
  intro m
  induction m with
  | nil =>
    intro _
    simp [oinsert]
  | cons q rest ih =>
    intro hp
    obtain ⟨k2, v2⟩ := q
    rw [List.pairwise_cons] at hp
    obtain ⟨hhead, htail⟩ := hp
    by_cases h1 : keyLt k k2 = true
    · simp only [oinsert, h1, if_true]
      refine List.Pairwise.cons ?_ (List.Pairwise.cons hhead htail)
      intro p hp2
      rcases List.mem_cons.mp hp2 with h | h
      · subst h; exact h1
      · exact keyLt_trans _ _ _ h1 (hhead p h)
    · by_cases h2 : k = k2
      · subst h2
        simp only [oinsert, h1, if_true, if_false]
        exact List.Pairwise.cons hhead htail
      · simp only [oinsert, h1, h2, if_false]
        refine List.Pairwise.cons ?_ (ih htail)
        intro p hp2
        rcases mem_oinsert rest p hp2 with h | h
        · subst h
          cases h3 : keyLt k2 k with
          | true => exact h3
          | false =>
            exact absurd (keyLt_total k k2 (by simpa using h1) h3) h2
        · exact hhead p h

theorem olookup_some_mem {k : bytes} {v : value} :
    ∀ m, olookup k m = some v → (k, v) ∈ m := by
  intro m
  induction m with
  | nil => intro h; simp [olookup] at h
  | cons q rest ih =>
    intro h
    obtain ⟨k2, v2⟩ := q
    by_cases h2 : k = k2
    · subst h2
      simp only [olookup, if_true] at h
      simp [Option.some.injEq] at h
      simp [h]
    · simp only [olookup, h2, if_false] at h
      exact List.mem_cons.mpr (Or.inr (ih h))

theorem olookup_none_of_gt {k : bytes} :
    ∀ m, (∀ p ∈ m, keyLt k p.1 = true) → olookup k m = none := by
  intro m
  induction m with
  | nil => intro _; rfl
  | cons q rest ih =>
    intro hall
    obtain ⟨k2, v2⟩ := q
    have hk2 : keyLt k k2 = true := hall (k2, v2) (by simp)
    have hne : ¬k = k2 := keyLt_ne hk2
    simp only [olookup, hne, if_false]
    exact ih fun p hp => hall p (by simp [hp])

/-- Two key-sorted maps with the same lookup function are equal. -/
theorem sorted_ext : ∀ m1 m2 : List (bytes × value), m1.Pairwise kLT → m2.Pairwise kLT →
    (∀ k, olookup k m1 = olookup k m2) → m1 = m2 := by
  intro m1
  induction m1 with
  | nil =>
    intro m2 _ _ hext
    cases m2 with
    | nil => rfl
    | cons q rest =>
      exfalso
      have h := hext q.1
      simp [olookup] at h
  | cons p r1 ih =>
    intro m2 hp1 hp2 hext
    obtain ⟨k1, v1⟩ := p
    cases m2 with
    | nil =>
      exfalso
      have h := hext k1
      simp [olookup] at h
    | cons q r2 =>
      obtain ⟨k2, v2⟩ := q
      rw [List.pairwise_cons] at hp1 hp2
      obtain ⟨hh1, ht1⟩ := hp1
      obtain ⟨hh2, ht2⟩ := hp2
      have hkeys : k1 = k2 := by
        by_contra hne
        have e1 : olookup k1 ((k2, v2) :: r2) = some v1 := by
          rw [← hext k1]; simp [olookup]
        have e2 : olookup k2 ((k1, v1) :: r1) = some v2 := by
          rw [hext k2]; simp [olookup]
        simp only [olookup, hne, if_false] at e1
        have hne2 : ¬k2 = k1 := fun hh => hne hh.symm
        simp only [olookup, hne2, if_false] at e2
        have hm1 := olookup_some_mem r2 e1
        have hm2 := olookup_some_mem r1 e2
        have hlt1 : keyLt k2 k1 = true := hh2 (k1, v1) hm1
        have hlt2 : keyLt k1 k2 = true := hh1 (k2, v2) hm2
        rw [keyLt_asymm k1 k2 hlt2] at hlt1
        exact Bool.false_ne_true hlt1
      subst hkeys
      have hv : v1 = v2 := by
        have h := hext k1
        simp [olookup] at h
        exact h
      subst hv
      have hrest : ∀ k, olookup k r1 = olookup k r2 := by
        intro k
        by_cases hk : k = k1
        · subst hk
          rw [olookup_none_of_gt r1 fun p hp => hh1 p hp,
            olookup_none_of_gt r2 fun p hp => hh2 p hp]
        · have h := hext k
          simp only [olookup, hk, if_false] at h
          exact h
      rw [ih r2 ht1 ht2 hrest]

/-- Lookup in an association list is invariant under permutation when the
keys are distinct. -/
theorem olookup_perm :
    ∀ {m1 m2 : List (bytes × value)}, m1.Perm m2 → (m1.map Prod.fst).Nodup →
      ∀ k, olookup k m1 = olookup k m2 := by
  intro m1 m2 hp
  induction hp with
  | nil => intro _ k; rfl
  | cons p hsub ih =>
    obtain ⟨kp, vp⟩ := p
    intro hnd k
    simp only [List.map_cons, List.nodup_cons] at hnd
    by_cases hk : k = kp
    · simp [olookup, hk]
    · simp only [olookup, hk, if_false]
      exact ih hnd.2 k
  | swap x y t =>
    obtain ⟨kx, vx⟩ := x
    obtain ⟨ky, vy⟩ := y
    intro hnd k
    have hne : ¬ky = kx := by
      simp only [List.map_cons, List.nodup_cons, List.mem_cons] at hnd
      exact fun he => hnd.1 (Or.inl he)
    by_cases h1 : k = ky
    · subst h1
      simp [olookup, hne]
    · have hne2 : ¬kx = ky := fun h => hne h.symm
      by_cases h2 : k = kx <;> simp [olookup, h1, h2, hne2]
  | trans h12 h23 ih12 ih23 =>
    intro hnd k
    rw [ih12 hnd k]
    exact ih23 (((h12.map Prod.fst).nodup_iff).mp hnd) k

theorem buildMap_pairwise :
    ∀ (l acc : List (bytes × value)), acc.Pairwise kLT →
      (l.foldl (fun acc p => oinsert p.1 p.2 acc) acc).Pairwise kLT := by
  intro l
  induction l with
  | nil => intro acc h; exact h
  | cons p rest ih =>
    intro acc h
    simp only [List.foldl_cons]
    exact ih _ (oinsert_pairwise acc h)

/-
Round-trip machinery, parser side: feeding the serialization of a value
from a value-expecting state consumes it completely and emits exactly its
event stream, except that a number remains pending in the lexer until the
next delimiter byte.
-/

theorem feed_nil (s : parser_state) : feed s [] = .ok (s, []) := rfl

theorem feed_cons_ok {s s1 s2 : parser_state} {b : Nat} {rest : bytes}
    {e1 e2 : List pevent} (h1 : pstep s b = .ok (s1, e1))
    (h2 : feed s1 rest = .ok (s2, e2)) :
    feed s (b :: rest) = .ok (s2, e1 ++ e2) := by
  simp [feed, h1, h2]

/-- Parser state after a complete value has been consumed: a number is
still pending in the lexer, any other value has been fully emitted. -/
def postState (st : List ctx) : value → parser_state
  | .vnumber lit => ⟨.mNum lit, st⟩
  | _ => ⟨afterValue st, st⟩

/-- Events already emitted once a value has been consumed. -/
def emitted : value → List pevent
  | .vnumber _ => []
  | v => events_of v

/-- Events still pending in the lexer once a value has been consumed. -/
def pending : value → List pevent
  | .vnumber lit => [.numParsed lit]
  | _ => []

theorem emitted_append_pending (v : value) : emitted v ++ pending v = events_of v := by
  cases v <;> simp [emitted, pending, events_of]

theorem emitted_chain (u : value) (xs : List pevent) :
    emitted u ++ (pending u ++ xs) = events_of u ++ xs := by
  rw [← List.append_assoc, emitted_append_pending]

/-- Feeding escaped string content extends the in-progress string token by
exactly the original bytes. -/
theorem feed_escape : ∀ (s acc : bytes) (isKey : Bool) (st : List ctx),
    feed ⟨.mStr isKey acc, st⟩ (escape_string s) =
      .ok (⟨.mStr isKey (acc ++ s), st⟩, []) := by
  intro s
  induction s with
  | nil => intro acc isKey st; simp [escape_string, feed]
  | cons c rest ih =>
    intro acc isKey st
    have hc : feed ⟨.mStr isKey acc, st⟩ (escByte c) =
        .ok (⟨.mStr isKey (acc ++ [c]), st⟩, []) := by
      by_cases h34 : c = 34
      · subst h34; simp [escByte, feed, pstep, pstepBase]
      · by_cases h92 : c = 92
        · subst h92; simp [escByte, feed, pstep, pstepBase]
        · by_cases h47 : c = 47
          · subst h47; simp [escByte, feed, pstep, pstepBase]
          · by_cases h8 : c = 8
            · subst h8; simp [escByte, feed, pstep, pstepBase]
            · by_cases h12 : c = 12
              · subst h12; simp [escByte, feed, pstep, pstepBase]
              · by_cases h10 : c = 10
                · subst h10; simp [escByte, feed, pstep, pstepBase]
                · by_cases h13 : c = 13
                  · subst h13; simp [escByte, feed, pstep, pstepBase]
                  · by_cases h9 : c = 9
                    · subst h9; simp [escByte, feed, pstep, pstepBase]
                    · simp [escByte, h34, h92, h47, h8, h12, h10, h13, h9,
                        feed, pstep, pstepBase]
    have hrest := ih (acc ++ [c]) isKey st
    have := feed_seq hc hrest
    simpa [List.append_assoc] using this

/-- Feeding further number-alphabet bytes extends the in-progress number
token. -/
theorem feed_numtail : ∀ (t acc : bytes) (st : List ctx), t.all isNumByte = true →
    feed ⟨.mNum acc, st⟩ t = .ok (⟨.mNum (acc ++ t), st⟩, []) := by
  intro t
  induction t with
  | nil => intro acc st _; simp [feed]
  | cons b rest ih =>
    intro acc st hall
    simp only [List.all_cons, Bool.and_eq_true] at hall
    have h1 : pstep ⟨.mNum acc, st⟩ b = .ok (⟨.mNum (acc ++ [b]), st⟩, []) := by
      simp [pstep, hall.1]
    have h2 := ih (acc ++ [b]) st hall.2
    have := feed_cons_ok h1 h2
    simpa [List.append_assoc] using this

theorem pstep_post_arr_comma (v : value) (st : List ctx) :
    pstep (postState (.inArr :: st) v) 44 =
      .ok (⟨.mValue, .inArr :: st⟩, pending v) := by
  cases v <;>
    simp [postState, pending, pstep, pstepBase, afterValue, isWs, isNumByte, isDigit]

theorem pstep_post_arr_close (v : value) (st : List ctx) :
    pstep (postState (.inArr :: st) v) 93 =
      .ok (⟨afterValue st, st⟩, pending v ++ [.arrEnd]) := by
  cases v <;>
    simp [postState, pending, pstep, pstepBase, afterValue, isWs, isNumByte, isDigit]

theorem pstep_post_obj_comma (v : value) (st : List ctx) :
    pstep (postState (.inObj :: st) v) 44 =
      .ok (⟨.mKey, .inObj :: st⟩, pending v) := by
  cases v <;>
    simp [postState, pending, pstep, pstepBase, afterValue, isWs, isNumByte, isDigit]

theorem pstep_post_obj_close (v : value) (st : List ctx) :
    pstep (postState (.inObj :: st) v) 125 =
      .ok (⟨afterValue st, st⟩, pending v ++ [.objEnd]) := by
  cases v <;>
    simp [postState, pending, pstep, pstepBase, afterValue, isWs, isNumByte, isDigit]

/-- Statement that the serialization of a value is consumed from any
value-expecting state, emitting its events with numbers left pending. -/
def ParseOK (v : value) : Prop :=
  ∀ (st : List ctx) (m : pmode), m = pmode.mValue ∨ m = pmode.mValueOrEnd →
    feed ⟨m, st⟩ (write_internal v) = .ok (postState st v, emitted v)

theorem parse_null : ParseOK .vnull := by
  intro st m hm
  rcases hm with hmm | hmm <;> subst hmm <;>
    simp [write_internal, feed, pstep, pstepBase, startValue, isWs, isDigit,
      isNumByte, nthByte, litk.word, litk.event, postState, emitted, events_of,
      afterValue]

theorem parse_bool (b : Bool) : ParseOK (.vboolean b) := by
  intro st m hm
  rcases hm with hmm | hmm <;> subst hmm <;> cases b <;>
    simp [write_internal, feed, pstep, pstepBase, startValue, isWs, isDigit,
      isNumByte, nthByte, litk.word, litk.event, postState, emitted, events_of,
      afterValue]

theorem parse_string (s : bytes) : ParseOK (.vstring s) := by
  intro st m hm
  have h1 : pstep ⟨m, st⟩ 34 = .ok (⟨.mStr false [], st⟩, []) := by
    rcases hm with hmm | hmm <;> subst hmm <;>
      simp [pstep, pstepBase, startValue, isWs]
  have h2 : feed ⟨.mStr false [], st⟩ (escape_string s) =
      .ok (⟨.mStr false s, st⟩, []) := by
    simpa using feed_escape s [] false st
  have h3 : pstep ⟨.mStr false s, st⟩ 34 = .ok (⟨afterValue st, st⟩, [.strParsed s]) := by
    simp [pstep, pstepBase]
  have h4 : feed ⟨.mStr false s, st⟩ [34] =
      .ok (⟨afterValue st, st⟩, [.strParsed s]) := by
    simpa using feed_cons_ok h3 (feed_nil _)
  have h6 := feed_cons_ok h1 (feed_seq h2 h4)
  simpa [write_internal, postState, emitted, events_of] using h6

theorem parse_number (lit : bytes) (h : litOK lit = true) : ParseOK (.vnumber lit) := by
  intro st m hm
  cases lit with
  | nil => simp [litOK] at h
  | cons h0 t =>
    simp only [litOK, Bool.and_eq_true] at h
    obtain ⟨hh, ht⟩ := h
    have hb : h0 = 45 ∨ (48 ≤ h0 ∧ h0 ≤ 57) := by
      simpa [isDigit] using hh
    have h1 : pstep ⟨m, st⟩ h0 = .ok (⟨.mNum [h0], st⟩, []) := by
      rcases hb with hb | hb
      · subst hb
        rcases hm with hmm | hmm <;> subst hmm <;>
          simp [pstep, pstepBase, startValue, isWs, isDigit]
      · have c1 : isWs h0 = false := by simp [isWs]; omega
        have c2 : ¬h0 = 123 := by omega
        have c3 : ¬h0 = 91 := by omega
        have c4 : ¬h0 = 93 := by omega
        have c5 : ¬h0 = 34 := by omega
        have c6 : (h0 = 45 || isDigit h0) = true := by
          simp [isDigit]
          omega
        rcases hm with hmm | hmm <;> subst hmm <;>
          simp [pstep, pstepBase, startValue, c1, c2, c3, c4, c5, c6]
    have h2 := feed_numtail t [h0] st ht
    have h3 := feed_cons_ok h1 h2
    simpa [write_internal, postState, emitted] using h3

theorem num_wf_arr_mem : ∀ l, num_wf_arr l = true → ∀ u ∈ l, num_wf u = true := by
  intro l
  induction l with
  | nil => intro _ u hu; simp at hu
  | cons v rest ih =>
    intro h u hu
    simp only [num_wf_arr, Bool.and_eq_true] at h
    rcases List.mem_cons.mp hu with h2 | h2
    · subst h2; exact h.1
    · exact ih h.2 u h2

theorem num_wf_obj_mem : ∀ l, num_wf_obj l = true →
    ∀ k u, (k, u) ∈ l → num_wf u = true := by
  intro l
  induction l with
  | nil => intro _ k u hu; simp at hu
  | cons p rest ih =>
    obtain ⟨k2, v2⟩ := p
    intro h k u hu
    simp only [num_wf_obj, Bool.and_eq_true] at h
    rcases List.mem_cons.mp hu with h2 | h2
    · rw [Prod.mk.injEq] at h2
      rw [h2.2]
      exact h.1
    · exact ih h.2 k u h2

theorem parse_arr_loop : ∀ (rest : List value), (∀ u ∈ rest, ParseOK u) →
    ∀ (st : List ctx) (vprev : value),
      feed (postState (.inArr :: st) vprev) (write_arr false rest ++ [93]) =
        .ok (⟨afterValue st, st⟩, pending vprev ++ (events_arr rest ++ [.arrEnd])) := by
  intro rest
  induction rest with
  | nil =>
    intro _ st vprev
    have h2 := feed_cons_ok (pstep_post_arr_close vprev st) (feed_nil _)
    simpa [write_arr, events_arr] using h2
  | cons u rest2 ih =>
    intro hall st vprev
    have hu : ParseOK u := hall u (by simp)
    have hval := hu (.inArr :: st) .mValue (Or.inl rfl)
    have hrest := ih (fun u2 hu2 => hall u2 (by simp [hu2])) st u
    have hbytes : write_arr false (u :: rest2) ++ [93] =
        44 :: (write_internal u ++ (write_arr false rest2 ++ [93])) := by
      simp [write_arr, List.append_assoc]
    rw [hbytes]
    rw [feed_cons_ok (pstep_post_arr_comma vprev st) (feed_seq hval hrest)]
    simp [events_arr, List.append_assoc, ← emitted_append_pending]

theorem parse_obj_member {u : value} (hu : ParseOK u) (k : bytes) (st : List ctx)
    (m : pmode) (hm : m = pmode.mKey ∨ m = pmode.mKeyOrEnd) {restb : bytes}
    {sfin : parser_state} {evs : List pevent}
    (hrest : feed (postState (.inObj :: st) u) restb = .ok (sfin, evs)) :
    feed ⟨m, .inObj :: st⟩
        (34 :: (escape_string k ++ (34 :: (58 :: (write_internal u ++ restb))))) =
      .ok (sfin, .keyParsed k :: (emitted u ++ evs)) := by
  have h1 : pstep ⟨m, .inObj :: st⟩ 34 = .ok (⟨.mStr true [], .inObj :: st⟩, []) := by
    rcases hm with hmm | hmm <;> subst hmm <;> simp [pstep, pstepBase, isWs]
  have h2 : feed ⟨.mStr true [], .inObj :: st⟩ (escape_string k) =
      .ok (⟨.mStr true k, .inObj :: st⟩, []) := by
    simpa using feed_escape k [] true (.inObj :: st)
  have h3 : pstep ⟨.mStr true k, .inObj :: st⟩ 34 =
      .ok (⟨.mColon, .inObj :: st⟩, [.keyParsed k]) := by
    simp [pstep, pstepBase]
  have h4 : pstep ⟨.mColon, .inObj :: st⟩ 58 = .ok (⟨.mValue, .inObj :: st⟩, []) := by
    simp [pstep, pstepBase, isWs]
  have h5 := hu (.inObj :: st) .mValue (Or.inl rfl)
  have hc := feed_cons_ok h1
    (feed_seq h2 (feed_cons_ok h3 (feed_cons_ok h4 (feed_seq h5 hrest))))
  simpa using hc

theorem parse_obj_loop : ∀ (rest : List (bytes × value)),
    (∀ k u, (k, u) ∈ rest → ParseOK u) →
    ∀ (st : List ctx) (vprev : value),
      feed (postState (.inObj :: st) vprev) (write_obj false rest ++ [125]) =
        .ok (⟨afterValue st, st⟩, pending vprev ++ (events_obj rest ++ [.objEnd])) := by
  intro rest
  induction rest with
  | nil =>
    intro _ st vprev
    have h2 := feed_cons_ok (pstep_post_obj_close vprev st) (feed_nil _)
    simpa [write_obj, events_obj] using h2
  | cons p rest2 ih =>
    obtain ⟨k, u⟩ := p
    intro hall st vprev
    have hu : ParseOK u := hall k u (by simp)
    have hrest := ih (fun k2 u2 h2 => hall k2 u2 (by simp [h2])) st u
    have hmem := parse_obj_member hu k st .mKey (Or.inl rfl) hrest
    have hbytes : write_obj false ((k, u) :: rest2) ++ [125] =
        44 :: (34 :: (escape_string k ++ (34 :: (58 :: (write_internal u ++
          (write_obj false rest2 ++ [125])))))) := by
      simp [write_obj, List.append_assoc]
    rw [hbytes]
    rw [feed_cons_ok (pstep_post_obj_comma vprev st) hmem]
    simp [events_obj, List.append_assoc, ← emitted_append_pending]

/-- The serialization of any value with grammar-conforming number literals
parses back to exactly its event stream. -/
theorem parse_write : ∀ v, num_wf v = true → ParseOK v := by
  refine value.recAux (fun v => num_wf v = true → ParseOK v) ?_ ?_ ?_ ?_ ?_ ?_
  · intro _; exact parse_null
  · intro b _; exact parse_bool b
  · intro lit h; exact parse_number lit (by simpa [num_wf] using h)
  · intro s _; exact parse_string s
  · intro mems hmem hwf st m hm
    cases mems with
    | nil =>
      rcases hm with hmm | hmm <;> subst hmm <;>
        simp [write_internal, write_obj, feed, pstep, pstepBase, startValue,
          isWs, postState, emitted, events_of, events_obj, afterValue]
    | cons p rest =>
      obtain ⟨k, u⟩ := p
      have hwf2 : num_wf u = true ∧ num_wf_obj rest = true := by
        simpa [num_wf, num_wf_obj] using hwf
      have hu : ParseOK u := hmem k u (by simp) hwf2.1
      have hall : ∀ k2 u2, (k2, u2) ∈ rest → ParseOK u2 := fun k2 u2 h2 =>
        hmem k2 u2 (by simp [h2]) (num_wf_obj_mem rest hwf2.2 k2 u2 h2)
      have h1 : pstep ⟨m, st⟩ 123 = .ok (⟨.mKeyOrEnd, .inObj :: st⟩, [.objStart]) := by
        rcases hm with hmm | hmm <;> subst hmm <;>
          simp [pstep, pstepBase, startValue, isWs]
      have hloop := parse_obj_loop rest hall st u
      have hmem2 := parse_obj_member hu k st .mKeyOrEnd (Or.inr rfl) hloop
      have hbytes : write_internal (.vobject ((k, u) :: rest)) =
          123 :: (34 :: (escape_string k ++ (34 :: (58 :: (write_internal u ++
            (write_obj false rest ++ [125])))))) := by
        simp [write_internal, write_obj, List.append_assoc]
      rw [hbytes]
      rw [feed_cons_ok h1 hmem2]
      rw [emitted_chain]
      simp only [postState, emitted, events_of, events_obj,
        List.append_assoc, List.cons_append, List.nil_append, List.append_nil,
        List.singleton_append]
  · intro l hmem hwf st m hm
    cases l with
    | nil =>
      rcases hm with hmm | hmm <;> subst hmm <;>
        simp [write_internal, write_arr, feed, pstep, pstepBase, startValue,
          isWs, postState, emitted, events_of, events_arr, afterValue]
    | cons u rest =>
      have hwf2 : num_wf u = true ∧ num_wf_arr rest = true := by
        simpa [num_wf, num_wf_arr] using hwf
      have hu : ParseOK u := hmem u (by simp) hwf2.1
      have hall : ∀ u2 ∈ rest, ParseOK u2 := fun u2 h2 =>
        hmem u2 (by simp [h2]) (num_wf_arr_mem rest hwf2.2 u2 h2)
      have h1 : pstep ⟨m, st⟩ 91 = .ok (⟨.mValueOrEnd, .inArr :: st⟩, [.arrStart]) := by
        rcases hm with hmm | hmm <;> subst hmm <;>
          simp [pstep, pstepBase, startValue, isWs]
      have hval := hu (.inArr :: st) .mValueOrEnd (Or.inr rfl)
      have hloop := parse_arr_loop rest hall st u
      have hbytes : write_internal (.varray (u :: rest)) =
          91 :: (write_internal u ++ (write_arr false rest ++ [93])) := by
        simp [write_internal, write_arr, List.append_assoc]
      rw [hbytes]
      rw [feed_cons_ok h1 (feed_seq hval hloop)]
      rw [emitted_chain]
      simp only [postState, emitted, events_of, events_arr,
        List.append_assoc, List.cons_append, List.nil_append, List.append_nil,
        List.singleton_append]

/-
Round-trip machinery, builder side: running the builder over the event
stream of a value attaches its normalized form to the innermost open
container.
-/

theorem runB_nil (s : bstate) : runB [] s = s := rfl

theorem runB_cons (e : pevent) (evs : List pevent) (s : bstate) :
    runB (e :: evs) s = runB evs (bstep s e) := rfl

theorem runB_append (a b : List pevent) (s : bstate) :
    runB (a ++ b) s = runB b (runB a s) := by
  simp [runB, List.foldl_append]

/-- Building the events of a value inside an open array appends its
normalized form. -/
def BuildA (v : value) : Prop :=
  ∀ (st : List (openc × bytes)) (es : List value) (k0 : bytes), ∃ k1,
    runB (events_of v) ⟨st, .arrC es, k0⟩ = ⟨st, .arrC (es ++ [normalize v]), k1⟩

/-- Building a key event followed by the events of a value inside an open
object inserts its normalized form under that key. -/
def BuildB (v : value) : Prop :=
  ∀ (st : List (openc × bytes)) (m0 : List (bytes × value)) (k0 kk : bytes), ∃ k1,
    runB (.keyParsed kk :: events_of v) ⟨st, .objC m0, k0⟩ =
      ⟨st, .objC (oinsert kk (normalize v) m0), k1⟩

theorem build_arr_loop : ∀ l, (∀ v ∈ l, BuildA v) →
    ∀ st es k0, ∃ k1,
      runB (events_arr l) ⟨st, .arrC es, k0⟩ = ⟨st, .arrC (es ++ normalize_arr l), k1⟩ := by
  intro l
  induction l with
  | nil =>
    intro _ st es k0
    exact ⟨k0, by simp [events_arr, runB, normalize_arr]⟩
  | cons v rest ih =>
    intro hall st es k0
    obtain ⟨kA, hA⟩ := hall v (by simp) st es k0
    obtain ⟨kB, hB⟩ := ih (fun u hu => hall u (by simp [hu])) st (es ++ [normalize v]) kA
    refine ⟨kB, ?_⟩
    simp only [events_arr]
    rw [runB_append, hA, hB]
    simp [normalize_arr]

theorem build_obj_loop : ∀ ml, (∀ k v, (k, v) ∈ ml → BuildB v) →
    ∀ st acc k0, ∃ k1,
      runB (events_obj ml) ⟨st, .objC acc, k0⟩ = ⟨st, .objC (normalize_obj acc ml), k1⟩ := by
  intro ml
  induction ml with
  | nil =>
    intro _ st acc k0
    exact ⟨k0, by simp [events_obj, runB, normalize_obj]⟩
  | cons p rest ih =>
    obtain ⟨k, v⟩ := p
    intro hall st acc k0
    obtain ⟨kA, hA⟩ := hall k v (by simp) st acc k0 k
    obtain ⟨kB, hB⟩ := ih (fun k2 v2 h2 => hall k2 v2 (by simp [h2])) st
      (oinsert k (normalize v) acc) kA
    refine ⟨kB, ?_⟩
    have hsplit : events_obj ((k, v) :: rest) =
        (.keyParsed k :: events_of v) ++ events_obj rest := by
      simp [events_obj]
    rw [hsplit, runB_append, hA, hB]
    simp [normalize_obj]

theorem build_ok : ∀ v, BuildA v ∧ BuildB v := by
  refine value.recAux (fun v => BuildA v ∧ BuildB v) ?_ ?_ ?_ ?_ ?_ ?_
  · constructor
    · intro st es k0
      exact ⟨k0, by simp [events_of, runB, bstep, attachScalar, normalize]⟩
    · intro st m0 k0 kk
      exact ⟨[], by simp [events_of, runB, bstep, attachScalar, normalize]⟩
  · intro b
    constructor
    · intro st es k0
      exact ⟨k0, by simp [events_of, runB, bstep, attachScalar, normalize]⟩
    · intro st m0 k0 kk
      exact ⟨[], by simp [events_of, runB, bstep, attachScalar, normalize]⟩
  · intro lit
    constructor
    · intro st es k0
      exact ⟨k0, by simp [events_of, runB, bstep, attachScalar, normalize]⟩
    · intro st m0 k0 kk
      exact ⟨[], by simp [events_of, runB, bstep, attachScalar, normalize]⟩
  · intro s
    constructor
    · intro st es k0
      exact ⟨k0, by simp [events_of, runB, bstep, attachScalar, normalize]⟩
    · intro st m0 k0 kk
      exact ⟨[], by simp [events_of, runB, bstep, attachScalar, normalize]⟩
  · intro mems hmem
    have hloop := build_obj_loop mems (fun k v hv => (hmem k v hv).2)
    constructor
    · intro st es k0
      obtain ⟨k1, h1⟩ := hloop ((.arrC es, k0) :: st) [] k0
      refine ⟨k1, ?_⟩
      simp only [events_of]
      rw [runB_cons]
      have hs1 : bstep ⟨st, .arrC es, k0⟩ .objStart =
          ⟨(.arrC es, k0) :: st, .objC [], k0⟩ := rfl
      rw [hs1, runB_append, h1]
      simp [runB, bstep, attachInto, closeOpen, normalize]
    · intro st m0 k0 kk
      obtain ⟨k1, h1⟩ := hloop ((.objC m0, kk) :: st) [] []
      refine ⟨k1, ?_⟩
      simp only [events_of]
      rw [runB_cons, runB_cons]
      have hs1 : bstep (bstep ⟨st, .objC m0, k0⟩ (.keyParsed kk)) .objStart =
          ⟨(.objC m0, kk) :: st, .objC [], []⟩ := rfl
      rw [hs1, runB_append, h1]
      simp [runB, bstep, attachInto, closeOpen, normalize]
  · intro l hmem
    have hloop := build_arr_loop l (fun v hv => (hmem v hv).1)
    constructor
    · intro st es k0
      obtain ⟨k1, h1⟩ := hloop ((.arrC es, k0) :: st) [] k0
      refine ⟨k1, ?_⟩
      simp only [events_of]
      rw [runB_cons]
      have hs1 : bstep ⟨st, .arrC es, k0⟩ .arrStart =
          ⟨(.arrC es, k0) :: st, .arrC [], k0⟩ := rfl
      rw [hs1, runB_append, h1]
      simp [runB, bstep, attachInto, closeOpen, normalize]
    · intro st m0 k0 kk
      obtain ⟨k1, h1⟩ := hloop ((.objC m0, kk) :: st) [] []
      refine ⟨k1, ?_⟩
      simp only [events_of]
      rw [runB_cons, runB_cons]
      have hs1 : bstep (bstep ⟨st, .objC m0, k0⟩ (.keyParsed kk)) .arrStart =
          ⟨(.objC m0, kk) :: st, .arrC [], []⟩ := rfl
      rw [hs1, runB_append, h1]
      simp [runB, bstep, attachInto, closeOpen, normalize]

/-- Building the whole event stream of a value in the root wrapper yields
its normalized form as the document. -/
theorem buildDoc_events (v : value) : buildDoc (events_of v) = normalize v := by
  obtain ⟨k1, h⟩ := (build_ok v).1 [] [] []
  have h2 : runB (events_of v) binit = ⟨[], .arrC [normalize v], k1⟩ := by
    simpa [binit] using h
  simp [buildDoc, h2]

/-
Normalization is the identity on canonical trees (sorted unique-key object
maps), which is the invariant std::map maintains for every C++ tree.
-/

theorem oinsert_append_of_lt : ∀ (acc : List (bytes × value)) (k : bytes) (v : value),
    (∀ p ∈ acc, keyLt p.1 k = true) → oinsert k v acc = acc ++ [(k, v)] := by
  intro acc
  induction acc with
  | nil => intro k v _; rfl
  | cons q rest ih =>
    obtain ⟨k2, v2⟩ := q
    intro k v hall
    have h2 : keyLt k2 k = true := hall (k2, v2) (by simp)
    have hlt : keyLt k k2 = false := keyLt_asymm k2 k h2
    have hne : ¬k = k2 := fun he => keyLt_ne h2 he.symm
    simp only [oinsert]
    rw [if_neg (by simp [hlt]), if_neg hne]
    rw [ih k v (fun p hp => hall p (by simp [hp]))]
    simp

theorem sorted_keys_pairwise : ∀ m, sorted_keys m = true → m.Pairwise kLT := by
  intro m
  induction m with
  | nil => intro _; exact List.Pairwise.nil
  | cons p rest ih =>
    intro h
    cases rest with
    | nil => simp [kLT]
    | cons q rest2 =>
      obtain ⟨k1, v1⟩ := p
      obtain ⟨k2, v2⟩ := q
      simp only [sorted_keys, Bool.and_eq_true] at h
      have hp2 := ih h.2
      refine List.Pairwise.cons ?_ hp2
      intro r hr
      rcases List.mem_cons.mp hr with h3 | h3
      · subst h3; exact h.1
      · have hq := (List.pairwise_cons.mp hp2).1 r h3
        exact keyLt_trans _ _ _ h.1 hq

theorem normalize_obj_sorted : ∀ (ml acc : List (bytes × value)), ml.Pairwise kLT →
    (∀ p ∈ acc, ∀ q ∈ ml, keyLt p.1 q.1 = true) →
    (∀ k v, (k, v) ∈ ml → normalize v = v) →
    normalize_obj acc ml = acc ++ ml := by
  intro ml
  induction ml with
  | nil => intro acc _ _ _; simp [normalize_obj]
  | cons p rest ih =>
    obtain ⟨k, v⟩ := p
    intro acc hpw hacc hnm
    have hnv : normalize v = v := hnm k v (by simp)
    simp only [normalize_obj, hnv]
    have hins : oinsert k v acc = acc ++ [(k, v)] :=
      oinsert_append_of_lt acc k v (fun p hp => hacc p hp (k, v) (by simp))
    rw [hins]
    have hrec := ih (acc ++ [(k, v)]) (List.pairwise_cons.mp hpw).2 ?_ ?_
    · rw [hrec]; simp
    · intro p hp q hq
      rcases List.mem_append.mp hp with h2 | h2
      · exact hacc p h2 q (by simp [hq])
      · have h3 : p = (k, v) := by simpa using h2
        subst h3
        exact (List.pairwise_cons.mp hpw).1 q hq
    · intro k2 v2 h2
      exact hnm k2 v2 (by simp [h2])

theorem canonical_arr_mem : ∀ l, canonical_arr l = true → ∀ v ∈ l, canonical v = true := by
  intro l
  induction l with
  | nil => intro _ v hv; simp at hv
  | cons u rest ih =>
    intro h v hv
    simp only [canonical_arr, Bool.and_eq_true] at h
    rcases List.mem_cons.mp hv with h2 | h2
    · subst h2; exact h.1
    · exact ih h.2 v h2

theorem canonical_obj_mem : ∀ l, canonical_obj l = true →
    ∀ k v, (k, v) ∈ l → canonical v = true := by
  intro l
  induction l with
  | nil => intro _ k v hv; simp at hv
  | cons p rest ih =>
    obtain ⟨k2, v2⟩ := p
    intro h k v hv
    simp only [canonical_obj, Bool.and_eq_true] at h
    rcases List.mem_cons.mp hv with h2 | h2
    · rw [Prod.mk.injEq] at h2
      rw [h2.2]
      exact h.1
    · exact ih h.2 k v h2

theorem normalize_arr_id : ∀ l, (∀ v ∈ l, canonical v = true → normalize v = v) →
    canonical_arr l = true → normalize_arr l = l := by
  intro l
  induction l with
  | nil => intro _ _; rfl
  | cons u rest ih =>
    intro hall h
    simp only [canonical_arr, Bool.and_eq_true] at h
    simp only [normalize_arr, hall u (by simp) h.1,
      ih (fun v hv => hall v (by simp [hv])) h.2]

/-- Normalization is the identity on canonical trees. -/
theorem norm_id : ∀ v, canonical v = true → normalize v = v := by
  refine value.recAux (fun v => canonical v = true → normalize v = v) ?_ ?_ ?_ ?_ ?_ ?_
  · intro _; simp [normalize]
  · intro b _; simp [normalize]
  · intro lit _; simp [normalize]
  · intro s _; simp [normalize]
  · intro mems hmem hc
    simp only [canonical, Bool.and_eq_true] at hc
    have hpw := sorted_keys_pairwise mems hc.1
    have hobj : normalize_obj [] mems = [] ++ mems :=
      normalize_obj_sorted mems [] hpw (by simp)
        (fun k v hv => hmem k v hv (canonical_obj_mem mems hc.2 k v hv))
    simp [normalize, hobj]
  · intro l hmem hc
    simp only [canonical] at hc
    simp [normalize, normalize_arr_id l (fun v hv hcv => hmem v hv hcv) hc]

/-
Claim theorems.
-/

/-- C1.  Chunk-boundary independence: feeding any byte sequence to the
parser in any sequence of chunks (in particular split at every byte
boundary, or in the fixed-size buffers of the file read loop) produces the
same final state and the same event sequence as feeding it as one span, and
the resulting document of read over the chunked file source equals read
over the joined span.  This holds for every input, valid JSON or not. -/
theorem chunk_boundary_independence :
    ∀ cs : List bytes,
      (∀ s : parser_state, feedChunks s cs = feed s cs.flatten) ∧
        read_file cs = read cs.flatten := by
  intro cs
  have hfeed : ∀ (cs2 : List bytes) (s : parser_state),
      feedChunks s cs2 = feed s cs2.flatten := by
    intro cs2
    induction cs2 with
    | nil => intro s; simp [feedChunks, feed]
    | cons c rest ih =>
      intro s
      simp only [List.flatten_cons, feed_append]
      cases hc : feed s c with
      | error e => simp [feedChunks, hc, seqFeed]
      | ok p =>
        obtain ⟨s1, e1⟩ := p
        simp only [feedChunks, hc, seqFeed, ih s1]
  refine ⟨hfeed cs, ?_⟩
  unfold read_file read
  rw [hfeed cs]

/-- C2.  Round-trip for object-rooted trees: serializing any tree whose
root is an Object and whose number literals conform to the number grammar
(the data-model invariant every parser-built and spec-conforming tree
satisfies) and parsing the produced text back yields exactly the tree up to
object-key-order normalization; on canonical trees, which is all trees the
std::map-backed C++ value can represent, normalization is the identity and
the round trip is exact. -/
theorem object_round_trip (v : value) (hroot : v.get_type = .object)
    (hwf : num_wf v = true) :
    Except.bind (write v) read = .ok (normalize v) ∧
      (canonical v = true → normalize v = v) := by
  refine ⟨?_, norm_id v⟩
  have hok := parse_write v hwf [] .mValue (Or.inl rfl)
  cases v with
  | vnull => simp [value.get_type] at hroot
  | vboolean b => simp [value.get_type] at hroot
  | vnumber lit => simp [value.get_type] at hroot
  | vstring s => simp [value.get_type] at hroot
  | varray l => simp [value.get_type] at hroot
  | vobject mems =>
    have hw : write (.vobject mems) = .ok (write_internal (.vobject mems)) := by
      simp [write, value.get_type]
    rw [hw]
    show read (write_internal (.vobject mems)) = .ok (normalize (.vobject mems))
    have hfeed : feed pinit (write_internal (.vobject mems)) =
        .ok (⟨.mDone, []⟩, events_of (.vobject mems)) := by
      simpa [postState, emitted, afterValue, pinit] using hok
    unfold read
    rw [hfeed]
    simp [pfinish, buildDoc_events]

/-- C2 witness: a concrete object-rooted tree with a nested array, number,
boolean, null, string with a newline and a quote, and an empty nested
object. -/
theorem object_round_trip_witness :
    Except.bind (write (value.vobject [([97], value.varray [value.vnumber [49],
        value.vboolean true, value.vnull, value.vstring [10, 34]]),
        ([98], value.vobject [])])) read =
      .ok (normalize (value.vobject [([97], value.varray [value.vnumber [49],
        value.vboolean true, value.vnull, value.vstring [10, 34]]),
        ([98], value.vobject [])])) ∧
      (canonical (value.vobject [([97], value.varray [value.vnumber [49],
          value.vboolean true, value.vnull, value.vstring [10, 34]]),
          ([98], value.vobject [])]) = true →
        normalize (value.vobject [([97], value.varray [value.vnumber [49],
          value.vboolean true, value.vnull, value.vstring [10, 34]]),
          ([98], value.vobject [])]) =
          value.vobject [([97], value.varray [value.vnumber [49],
            value.vboolean true, value.vnull, value.vstring [10, 34]]),
            ([98], value.vobject [])]) :=
  object_round_trip _ (by decide)
    (by simp [num_wf, num_wf_arr, num_wf_obj, litOK, isNumByte, isDigit])

/-- C3 counterexample.  The claim that read of the text 3.1400 followed by
to_string reproduces the text is false on this code: read yields a Number
value and value::to_string forwards to jsondom::write, which rejects every
non-object root, so the composition fails with the invalid-root error
instead of producing text. -/
theorem number_root_to_string_fails :
    Except.bind (read [51, 46, 49, 52, 48, 48]) value.to_string =
      .error "tried to write JSON with non-object root element" := rfl

/-- C3 amended.  Number literal fidelity as the code actually provides it:
read of the text 3.1400 stores the literal verbatim in the Number value,
the serializer emits a Number literal verbatim (never reformatted), and
serializing an object containing that number reproduces the six bytes
3.1400 exactly, not 3.14. -/
theorem number_literal_fidelity :
    read [51, 46, 49, 52, 48, 48] = .ok (.vnumber [51, 46, 49, 52, 48, 48]) ∧
    write_internal (.vnumber [51, 46, 49, 52, 48, 48]) = [51, 46, 49, 52, 48, 48] ∧
    value.to_string (.vobject [([97], .vnumber [51, 46, 49, 52, 48, 48])]) =
      .ok [123, 34, 97, 34, 58, 51, 46, 49, 52, 48, 48, 125] := by
  refine ⟨rfl, by simp [write_internal], ?_⟩
  simp [value.to_string, write, value.get_type, write_internal, write_obj,
    escape_string, escByte]

/-- C4.  Root asymmetry: read of the text 42 succeeds with a Number value;
write on that value fails with the invalid-root error; and write fails with
that error exactly when the root is not an Object, succeeding otherwise
(the in-memory sink itself cannot fail). -/
theorem root_asymmetry :
    read [52, 50] = .ok (.vnumber [52, 50]) ∧
    write (.vnumber [52, 50]) = .error "tried to write JSON with non-object root element" ∧
    (∀ v : value, v.get_type ≠ .object →
      write v = .error "tried to write JSON with non-object root element") ∧
    (∀ v : value, v.get_type = .object → write v = .ok (write_internal v)) := by
  refine ⟨rfl, rfl, ?_, ?_⟩
  · intro v h; simp [write, h]
  · intro v h; simp [write, h]

/-- C4 witness: the general parts of root_asymmetry applied at concrete
roots of each kind. -/
theorem root_asymmetry_witness :
    write (.varray []) = .error "tried to write JSON with non-object root element" ∧
    write (.vobject []) = .ok (write_internal (.vobject [])) :=
  ⟨root_asymmetry.2.2.1 (.varray []) (by decide),
    root_asymmetry.2.2.2 (.vobject []) (by decide)⟩

/-- C5.  Duplicate keys resolve to the last occurrence: parsing the object
text with key a bound to 1 and then to 2 yields an object with the single
key a mapped to the number 2; and in general, looking a key up in the map
built by folding member insertions finds the value of the last occurrence
of that key in the member sequence (earlier occurrences are discarded). -/
theorem duplicate_key_last_wins :
    read [123, 34, 97, 34, 58, 49, 44, 34, 97, 34, 58, 50, 125] =
      .ok (.vobject [([97], .vnumber [50])]) ∧
    ∀ (mems : List (bytes × value)) (k : bytes),
      olookup k (buildMap mems) = olookup k mems.reverse := by
  refine ⟨rfl, ?_⟩
  intro mems k
  unfold buildMap
  rw [olookup_foldl]
  simp [olookup, myOr_none_right]

/-- C6.  Object key order: the member map built by folding the same
key-value pairs in any two input orders (distinct keys) is identical, and it
is strictly sorted in ascending key order, which is the order in which the
serializer emits object members; consequently the two objects serialize to
identical text and the input order is not recoverable.  Arrays are emitted
in element order. -/
theorem object_key_order (l1 l2 : List (bytes × value)) (hp : l1.Perm l2)
    (hnd : (l1.map Prod.fst).Nodup) :
    buildMap l1 = buildMap l2 ∧ (buildMap l1).Pairwise kLT ∧
      write_internal (.vobject (buildMap l1)) = write_internal (.vobject (buildMap l2)) ∧
      (∀ l : List value, write_internal (.varray l) = 91 :: (write_arr true l ++ [93])) := by
  have h1 : (buildMap l1).Pairwise kLT := buildMap_pairwise l1 [] (by simp)
  have h2 : (buildMap l2).Pairwise kLT := buildMap_pairwise l2 [] (by simp)
  have hrev : l1.reverse.Perm l2.reverse :=
    (l1.reverse_perm).trans (hp.trans l2.reverse_perm.symm)
  have hndrev : (l1.reverse.map Prod.fst).Nodup := by
    rw [List.map_reverse]
    exact List.nodup_reverse.mpr hnd
  have hext : ∀ k, olookup k (buildMap l1) = olookup k (buildMap l2) := by
    intro k
    have e1 : olookup k (buildMap l1) = olookup k l1.reverse := by
      unfold buildMap
      rw [olookup_foldl]
      simp [olookup, myOr_none_right]
    have e2 : olookup k (buildMap l2) = olookup k l2.reverse := by
      unfold buildMap
      rw [olookup_foldl]
      simp [olookup, myOr_none_right]
    rw [e1, e2]
    exact olookup_perm hrev hndrev k
  have heq := sorted_ext _ _ h1 h2 hext
  exact ⟨heq, h1, by rw [heq], fun l => by simp [write_internal]⟩

/-- C6 witness: the same two members in both input orders. -/
theorem object_key_order_witness :
    buildMap [([97], value.vnull), ([98], value.vboolean true)] =
        buildMap [([98], value.vboolean true), ([97], value.vnull)] ∧
      (buildMap [([97], value.vnull), ([98], value.vboolean true)]).Pairwise kLT ∧
      write_internal (.vobject (buildMap [([97], value.vnull), ([98], value.vboolean true)])) =
        write_internal (.vobject (buildMap [([98], value.vboolean true), ([97], value.vnull)])) ∧
      (∀ l : List value, write_internal (.varray l) = 91 :: (write_arr true l ++ [93])) :=
  object_key_order _ _
    (List.Perm.swap ([98], value.vboolean true) ([97], value.vnull) []) (by decide)

/-- C7.  Typed-accessor totality: the type guard shared by all accessors
succeeds exactly on the matching type; each typed accessor (the mutable and
read-only forms share guard and payload) succeeds on a value of its own
kind and fails on every value of any other kind with the single
unexpected-type error carrying the requested and the actual type. -/
theorem typed_accessor_totality :
    (∀ (v : value) (t : type), v.get_type = t → v.throw_if_type_is_not t = .ok ()) ∧
    (∀ (v : value) (t : type), v.get_type ≠ t →
      v.throw_if_type_is_not t = .error (access_message t v.get_type)) ∧
    (∀ b, (value.vboolean b).boolean = .ok b) ∧
    (∀ v : value, v.get_type ≠ .boolean →
      v.boolean = .error (access_message .boolean v.get_type)) ∧
    (∀ s, (value.vnumber s).number = .ok s) ∧
    (∀ v : value, v.get_type ≠ .number →
      v.number = .error (access_message .number v.get_type)) ∧
    (∀ s, (value.vstring s).string = .ok s) ∧
    (∀ v : value, v.get_type ≠ .string →
      v.string = .error (access_message .string v.get_type)) ∧
    (∀ l, (value.varray l).array = .ok l) ∧
    (∀ v : value, v.get_type ≠ .array →
      v.array = .error (access_message .array v.get_type)) ∧
    (∀ m, (value.vobject m).object = .ok m) ∧
    (∀ v : value, v.get_type ≠ .object →
      v.object = .error (access_message .object v.get_type)) := by
  refine ⟨?_, ?_, fun b => rfl, ?_, fun s => rfl, ?_, fun s => rfl, ?_,
    fun l => rfl, ?_, fun m => rfl, ?_⟩
  · intro v t h; simp [value.throw_if_type_is_not, h]
  · intro v t h; simp [value.throw_if_type_is_not, h]
  · intro v h; cases v <;> simp_all [value.boolean, value.get_type]
  · intro v h; cases v <;> simp_all [value.number, value.get_type]
  · intro v h; cases v <;> simp_all [value.string, value.get_type]
  · intro v h; cases v <;> simp_all [value.array, value.get_type]
  · intro v h; cases v <;> simp_all [value.object, value.get_type]

/-- C7 witness: the guard and one mismatching accessor of each kind,
applied at concrete values. -/
theorem typed_accessor_totality_witness :
    (value.vnull).throw_if_type_is_not .null = .ok () ∧
    (value.vnull).throw_if_type_is_not .array =
      .error (access_message .array .null) ∧
    (value.vnumber [48]).boolean = .error (access_message .boolean .number) ∧
    (value.vboolean true).number = .error (access_message .number .boolean) ∧
    (value.vnull).string = .error (access_message .string .null) ∧
    (value.vobject []).array = .error (access_message .array .object) ∧
    (value.varray []).object = .error (access_message .object .array) :=
  ⟨typed_accessor_totality.1 .vnull .null (by decide),
    typed_accessor_totality.2.1 .vnull .array (by decide),
    typed_accessor_totality.2.2.2.1 (.vnumber [48]) (by decide),
    typed_accessor_totality.2.2.2.2.2.1 (.vboolean true) (by decide),
    typed_accessor_totality.2.2.2.2.2.2.2.1 .vnull (by decide),
    typed_accessor_totality.2.2.2.2.2.2.2.2.2.1 (.vobject []) (by decide),
    typed_accessor_totality.2.2.2.2.2.2.2.2.2.2.2 (.varray []) (by decide)⟩

/-- C8.  Escaping exactness: string serialization is a per-byte
homomorphism that maps exactly the eight bytes quote, backslash, slash,
backspace, form feed, newline, carriage return and tab to their two-byte
escapes and leaves every other byte value, including the bytes of
multi-byte sequences, unchanged; a serialized string is the escaped bytes
between quotes. -/
theorem escape_exactness :
    (∀ s t, escape_string (s ++ t) = escape_string s ++ escape_string t) ∧
    (escape_string [34] = [92, 34] ∧ escape_string [92] = [92, 92] ∧
      escape_string [47] = [92, 47] ∧ escape_string [8] = [92, 98] ∧
      escape_string [12] = [92, 102] ∧ escape_string [10] = [92, 110] ∧
      escape_string [13] = [92, 114] ∧ escape_string [9] = [92, 116]) ∧
    (∀ b, b ≠ 34 → b ≠ 92 → b ≠ 47 → b ≠ 8 → b ≠ 12 → b ≠ 10 → b ≠ 13 → b ≠ 9 →
      escape_string [b] = [b]) ∧
    (∀ s, write_internal (.vstring s) = 34 :: (escape_string s ++ [34])) := by
  refine ⟨?_, by decide, ?_, ?_⟩
  · intro s t
    induction s with
    | nil => simp [escape_string]
    | cons c rest ih => simp [escape_string, ih]
  · intro b h34 h92 h47 h8 h12 h10 h13 h9
    simp [escape_string, escByte, h34, h92, h47, h8, h12, h10, h13, h9]
  · intro s; simp [write_internal]

/-- C8 witness: the pass-through case applied at the byte 195, the first
byte of a two-byte UTF-8 sequence. -/
theorem escape_exactness_witness : escape_string [195] = [195] :=
  escape_exactness.2.2.1 195 (by decide) (by decide) (by decide) (by decide)
    (by decide) (by decide) (by decide) (by decide)

/-- C9.  Empty input yields Null, not an error; whitespace-only input
likewise; and in general read returns the document built from the parsed
event stream, which is the single top-level value when one was produced and
the Null value when the event stream produced none. -/
theorem empty_input_null :
    read [] = .ok .vnull ∧
    read [32, 10] = .ok .vnull ∧
    (∀ bs, parseEvents bs = .ok [] → read bs = .ok .vnull) ∧
    (∀ bs evs, parseEvents bs = .ok evs → read bs = .ok (buildDoc evs)) := by
  refine ⟨rfl, rfl, ?_, ?_⟩
  · intro bs h
    rw [read_of_parseEvents h]
    rfl
  · intro bs evs h
    exact read_of_parseEvents h

/-- C9 witness: the no-top-level-value case applied at a concrete
whitespace input. -/
theorem empty_input_null_witness : read [9] = .ok value.vnull :=
  empty_input_null.2.2.1 [9] rfl

/-- C10.  Invalid-root atomicity: when write is called with a non-object
root, the error is raised before the destination guard is acquired in
create mode, so the sink is returned exactly as it was: never opened,
truncated or written. -/
theorem invalid_root_atomicity (v : value) (f : sink_state)
    (h : v.get_type ≠ .object) :
    write_run v f = (some "tried to write JSON with non-object root element", f) := by
  simp [write_run, h]

/-- C10 witness: a Number root against a concrete untouched sink. -/
theorem invalid_root_atomicity_witness :
    write_run (.vnumber [49]) ⟨false, [55]⟩ =
      (some "tried to write JSON with non-object root element", ⟨false, [55]⟩) :=
  invalid_root_atomicity (.vnumber [49]) ⟨false, [55]⟩ (by decide)

end jsondom
